import Mathlib

/-!
Verification development for the embedding-and-retrieval core specified in
`spec.md` of the fastembed repository. The repository's visible artifact is a
usage notebook exercising `client.add`, `client.query` and `client.delete`;
the core those calls reach (Vector Store, Embedding Pipeline) is modelled here
from the specification's words and the notebook's observed behavior, and the
specified properties are proved against that model.
-/

set_option maxHeartbeats 1000000

namespace FastEmbed

/-- Modelled from the spec: §3 Data Model. An identifier is a 64-bit integer
or a string. -/
inductive DocId where
  | intId : Int → DocId
  | strId : String → DocId
deriving DecidableEq, Repr

/-- Modelled from the spec: query results render the identifier as a string;
the notebook shows records inserted under integer ids `[42, 2]` coming back
as `id='42'` and `id='2'`. -/
def renderDocId : DocId → String
  | .intId n => toString n
  | .strId s => s

/-- Modelled from the spec: §3 Data Model. A stored record holds the
embedding vector, the document text and the metadata map (modelled as an
association list of string keys and string values). Floating-point vector
components are idealized as rationals. -/
structure Record where
  vector : List ℚ
  text : String
  meta : List (String × String)
deriving DecidableEq, Repr

/-- Modelled from the spec: §3. A collection is a named mapping from
identifier to record; the list order records insertion order, which the
query tie-break depends on. -/
abbrev Collection := List (DocId × Record)

/-- Modelled from the spec: §3. The in-memory store maps collection names to
collections. -/
structure Store where
  collections : List (String × Collection)
deriving DecidableEq, Repr

/-- Modelled from the spec: §7 error taxonomy (the two kinds the claims
exercise). -/
inductive StoreError where
  | argumentError | collectionNotFound
deriving DecidableEq, Repr

/-- Modelled from the spec: §4.3/§4.4. The embedding pipeline seen from the
store: fixed functions from text to a vector, one for PASSAGE mode (documents)
and one for QUERY mode. -/
structure Engine where
  embedPassage : String → List ℚ
  embedQuery : String → List ℚ

/-- Look a collection up by name. -/
def findColl : List (String × Collection) → String → Option Collection
  | [], _ => none
  | (n, c) :: rest, name => if n = name then some c else findColl rest name

/-- Replace the named collection, or append it if absent. -/
def insertColl : List (String × Collection) → String → Collection → List (String × Collection)
  | [], name, c => [(name, c)]
  | (n, c0) :: rest, name, c =>
    if n = name then (name, c) :: rest else (n, c0) :: insertColl rest name c

/-- The identifiers present in a collection, in insertion order. -/
def keys (c : Collection) : List DocId := c.map (·.1)

/-- Look a record up by identifier. -/
def findRec : Collection → DocId → Option Record
  | [], _ => none
  | (j, r) :: rest, i => if j = i then some r else findRec rest i

/-- Modelled from the spec: §4.4 upsert semantics. If the identifier exists
its record is overwritten in place; otherwise the pair is appended at the
end (newest insertion last). -/
def upsert : Collection → DocId → Record → Collection
  | [], i, r => [(i, r)]
  | (j, s) :: rest, i, r =>
    if j = i then (i, r) :: rest else (j, s) :: upsert rest i r

/-- Surrogate-identifier candidates: `n + 1` pairwise distinct identifiers. -/
def genCandidates (n : Nat) : List DocId :=
  (List.range (n + 1)).map (fun k => DocId.intId (Int.ofNat k))

/-- Modelled from the spec: §3, "if absent at insertion time the store
generates a unique surrogate". Picks a candidate identifier not already
present in the collection (one always exists by counting). -/
def freshId (c : Collection) : DocId :=
  ((genCandidates (keys c).length).filter (fun i => !(decide (i ∈ keys c)))).headD
    (.intId 0)

/-- Insert one document: use the supplied identifier or generate a fresh one,
embed the text in PASSAGE mode, and upsert the record. -/
def addOne (eng : Engine) (c : Collection) (doc : String)
    (m : List (String × String)) (oid : Option DocId) : DocId × Collection :=
  let i := oid.getD (freshId c)
  (i, upsert c i ⟨eng.embedPassage doc, doc, m⟩)

/-- Insert a list of (document, metadata, optional id) triples in order,
returning the final identifiers in input order. -/
def addList (eng : Engine) (c : Collection) :
    List (String × List (String × String) × Option DocId) → List DocId × Collection
  | [] => ([], c)
  | (d, m, oid) :: rest =>
    let p := addOne eng c d m oid
    let q := addList eng p.2 rest
    (p.1 :: q.1, q.2)

/-- Modelled from the spec: §4.4 `add`. Validates that metadata (and ids,
when supplied) align 1:1 with the documents, failing with `ArgumentError`
and leaving the store untouched otherwise; opens or creates the named
collection; embeds and upserts every document; returns the final
identifiers in input order together with the new store state. -/
def add (eng : Engine) (st : Store) (name : String) (docs : List String)
    (metadata : Option (List (List (String × String))))
    (ids : Option (List DocId)) : Except StoreError (List DocId) × Store :=
  let ms := metadata.getD (docs.map fun _ => [])
  let oids : List (Option DocId) :=
    match ids with
    | some l => l.map some
    | none => docs.map fun _ => none
  if ms.length = docs.length then
    if oids.length = docs.length then
      let c := (findColl st.collections name).getD []
      let p := addList eng c (docs.zip (ms.zip oids))
      (.ok p.1, ⟨insertColl st.collections name p.2⟩)
    else (.error .argumentError, st)
  else (.error .argumentError, st)

/-- Inner product of two vectors (similarity of normalized vectors). -/
def dot : List ℚ → List ℚ → ℚ
  | x :: xs, y :: ys => x * y + dot xs ys
  | _, _ => 0

/-- A scored record during a query: its insertion position in the collection,
its identifier, its record, and its similarity score. -/
structure Scored where
  idx : Nat
  did : DocId
  entry : Record
  score : ℚ
deriving DecidableEq, Repr

/-- Score every record of the collection against the query vector, tagging
each with its insertion position. -/
def scoreCollFrom (qv : List ℚ) (i : Nat) : Collection → List Scored
  | [] => []
  | (did, r) :: rest => ⟨i, did, r, dot qv r.vector⟩ :: scoreCollFrom qv (i + 1) rest

def scoreColl (qv : List ℚ) (c : Collection) : List Scored := scoreCollFrom qv 0 c

/-- Insert a scored record into a descending-sorted list, after every record
whose score is greater than or equal (so earlier-inserted records win ties). -/
def insertDesc (x : Scored) : List Scored → List Scored
  | [] => [x]
  | y :: ys => if y.score < x.score then x :: y :: ys else y :: insertDesc x ys

/-- Stable sort by descending score: records are inserted in insertion order,
each going after all records scoring at least as high. -/
def sortDesc (l : List Scored) : List Scored :=
  l.foldl (fun acc x => insertDesc x acc) []

/-- Modelled from the spec: §3 Query Result and the notebook's
`QueryResponse`: string-rendered identifier, score, document text, and the
metadata map augmented with the text under the reserved key `document`. -/
structure QueryResult where
  id : String
  score : ℚ
  document : String
  metadata : List (String × String)
deriving DecidableEq, Repr

/-- First-match lookup in a metadata association list. -/
def lookupMeta (k : String) : List (String × String) → Option String
  | [] => none
  | (k0, v) :: rest => if k0 = k then some v else lookupMeta k rest

def renderResult (s : Scored) : QueryResult :=
  ⟨renderDocId s.did, s.score, s.entry.text, ("document", s.entry.text) :: s.entry.meta⟩

/-- The `top_k` highest-scoring records, stably sorted. -/
def topScored (qv : List ℚ) (c : Collection) (k : Nat) : List Scored :=
  (sortDesc (scoreColl qv c)).take k

/-- Modelled from the spec: §4.4 `query`. Fails with `CollectionNotFoundError`
when the collection was never created; otherwise embeds the query text in
QUERY mode, scores every stored record by inner product, and returns the
`top_k` highest-scoring records, descending, ties broken by insertion order. -/
def query (eng : Engine) (st : Store) (name : String) (text : String) (k : Nat) :
    Except StoreError (List QueryResult) :=
  match findColl st.collections name with
  | none => .error .collectionNotFound
  | some c => .ok ((topScored (eng.embedQuery text) c k).map renderResult)

/-- Modelled from the spec: §4.4 `delete`. Removes the records whose
identifiers are listed; absent identifiers are silently ignored and the call
never fails. -/
def delete (st : Store) (name : String) (ids : List DocId) : Store :=
  match findColl st.collections name with
  | none => st
  | some c =>
    ⟨insertColl st.collections name (c.filter fun p => !(decide (p.1 ∈ ids)))⟩

/-- The ranking order a query must deliver: a record may precede another
exactly when it scores strictly higher, or ties on score and was inserted
earlier (smaller insertion position). -/
def RankLE (a b : Scored) : Prop :=
  b.score < a.score ∨ (b.score = a.score ∧ a.idx < b.idx)

theorem mem_insertDesc {z x : Scored} {l : List Scored} :
    z ∈ insertDesc x l ↔ z = x ∨ z ∈ l := by
  induction l with
  | nil => simp [insertDesc]
  | cons y ys ih =>
    simp only [insertDesc]
    split
    · simp only [List.mem_cons]
    · simp only [List.mem_cons, ih]
      tauto

theorem pairwise_insertDesc {x : Scored} {l : List Scored}
    (hl : List.Pairwise RankLE l) (hx : ∀ y ∈ l, y.idx < x.idx) :
    List.Pairwise RankLE (insertDesc x l) := by
  induction l with
  | nil => simp [insertDesc, RankLE]
  | cons y ys ih =>
    obtain ⟨hy, hys⟩ := List.pairwise_cons.mp hl
    simp only [insertDesc]
    split
    · rename_i hscore
      refine List.pairwise_cons.mpr ⟨?_, hl⟩
      intro z hz
      rcases List.mem_cons.mp hz with rfl | hz
      · exact Or.inl hscore
      · rcases hy z hz with hlt | ⟨heq, _⟩
        · exact Or.inl (lt_trans hlt hscore)
        · exact Or.inl (heq ▸ hscore)
    · rename_i hscore
      push_neg at hscore
      refine List.pairwise_cons.mpr ⟨?_, ?_⟩
      · intro z hz
        rcases mem_insertDesc.mp hz with rfl | hz
        · rcases lt_or_eq_of_le hscore with hlt | heq
          · exact Or.inl hlt
          · exact Or.inr ⟨heq, hx y (List.mem_cons_self y ys)⟩
        · exact hy z hz
      · exact ih hys (fun z hz => hx z (List.mem_cons_of_mem y hz))

theorem mem_foldl_insertDesc {z : Scored} (l acc : List Scored) :
    z ∈ l.foldl (fun a x => insertDesc x a) acc ↔ z ∈ acc ∨ z ∈ l := by
  induction l generalizing acc with
  | nil => simp
  | cons x xs ih =>
    simp only [List.foldl_cons, ih, mem_insertDesc, List.mem_cons]
    tauto

theorem mem_sortDesc {z : Scored} {l : List Scored} : z ∈ sortDesc l ↔ z ∈ l := by
  simp [sortDesc, mem_foldl_insertDesc]

theorem pairwise_foldl_insertDesc (l acc : List Scored)
    (hacc : List.Pairwise RankLE acc)
    (hcross : ∀ x ∈ l, ∀ y ∈ acc, y.idx < x.idx)
    (hl : l.Pairwise fun a b => a.idx < b.idx) :
    (l.foldl (fun a x => insertDesc x a) acc).Pairwise RankLE := by
  induction l generalizing acc with
  | nil => exact hacc
  | cons x xs ih =>
    obtain ⟨hx, hxs⟩ := List.pairwise_cons.mp hl
    simp only [List.foldl_cons]
    apply ih
    · exact pairwise_insertDesc hacc (hcross x (List.mem_cons_self x xs))
    · intro z hz y hy
      rcases mem_insertDesc.mp hy with rfl | hy
      · exact hx z hz
      · exact hcross z (List.mem_cons_of_mem x hz) y hy
    · exact hxs

theorem mem_scoreCollFrom {s : Scored} {qv : List ℚ} {i : Nat} {c : Collection} :
    s ∈ scoreCollFrom qv i c →
      (s.did, s.entry) ∈ c ∧ s.score = dot qv s.entry.vector ∧ i ≤ s.idx := by
  induction c generalizing i with
  | nil => simp [scoreCollFrom]
  | cons p rest ih =>
    intro hs
    rcases List.mem_cons.mp hs with rfl | hs
    · exact ⟨List.mem_cons_self _ _, rfl, le_refl i⟩
    · obtain ⟨h1, h2, h3⟩ := ih hs
      exact ⟨List.mem_cons_of_mem p h1, h2, le_trans (Nat.le_succ i) h3⟩

theorem pairwise_idx_scoreCollFrom (qv : List ℚ) (i : Nat) (c : Collection) :
    (scoreCollFrom qv i c).Pairwise fun a b => a.idx < b.idx := by
  induction c generalizing i with
  | nil => exact List.Pairwise.nil
  | cons p rest ih =>
    refine List.pairwise_cons.mpr ⟨?_, ih (i + 1)⟩
    intro z hz
    exact lt_of_lt_of_le (Nat.lt_succ_self i) (mem_scoreCollFrom hz).2.2

theorem pairwise_sortDesc_scoreColl (qv : List ℚ) (c : Collection) :
    (sortDesc (scoreColl qv c)).Pairwise RankLE :=
  pairwise_foldl_insertDesc _ [] List.Pairwise.nil (by simp)
    (pairwise_idx_scoreCollFrom qv 0 c)

theorem mem_topScored {s : Scored} {qv : List ℚ} {c : Collection} {k : Nat} :
    s ∈ topScored qv c k → (s.did, s.entry) ∈ c := by
  intro hs
  have := List.take_subset k (sortDesc (scoreColl qv c)) hs
  exact (mem_scoreCollFrom (mem_sortDesc.mp this)).1

theorem pairwise_topScored (qv : List ℚ) (c : Collection) (k : Nat) :
    (topScored qv c k).Pairwise RankLE :=
  (pairwise_sortDesc_scoreColl qv c).sublist (List.take_sublist k _)

/-- C1: for every collection, query text and `k`, a successful query returns
at most `k` results, sorted by descending score with ties broken stably by
insertion position (the `RankLE` conjunct on the underlying scored records),
and every returned identifier is the rendering of an identifier present in
the collection at call time. -/
theorem query_top_k_sorted (eng : Engine) (st : Store) (name text : String)
    (k : Nat) (c : Collection) (h : findColl st.collections name = some c) :
    ∃ res, query eng st name text k = .ok res ∧
      res.length ≤ k ∧
      res.Pairwise (fun a b => b.score ≤ a.score) ∧
      (topScored (eng.embedQuery text) c k).Pairwise RankLE ∧
      ∀ r ∈ res, ∃ did rc, (did, rc) ∈ c ∧ r.id = renderDocId did := by
  refine ⟨(topScored (eng.embedQuery text) c k).map renderResult, ?_, ?_, ?_, ?_, ?_⟩
  · simp [query, h]
  · rw [List.length_map, topScored, List.length_take]
    exact min_le_left _ _
  · rw [List.pairwise_map]
    refine (pairwise_topScored _ c k).imp ?_
    intro a b hab
    rcases hab with hlt | ⟨heq, _⟩
    · exact le_of_lt hlt
    · exact le_of_eq heq
  · exact pairwise_topScored _ c k
  · intro r hr
    obtain ⟨s, hs, rfl⟩ := List.mem_map.mp hr
    exact ⟨s.did, s.entry, mem_topScored hs, rfl⟩

/-- Witness for C1 at a concrete one-record store. -/
theorem query_top_k_sorted_witness :
    findColl (Store.mk [("t", [(.intId 1, ⟨[1], "a", []⟩)])]).collections "t" =
      some [(.intId 1, ⟨[1], "a", []⟩)] ∧
    ∃ res, query ⟨fun _ => [1], fun _ => [1]⟩
        (Store.mk [("t", [(.intId 1, ⟨[1], "a", []⟩)])]) "t" "q" 2 = .ok res ∧
      res.length ≤ 2 := by
  refine ⟨by decide, ?_⟩
  obtain ⟨res, h1, h2, -, -, -⟩ :=
    query_top_k_sorted ⟨fun _ => [1], fun _ => [1]⟩
      (Store.mk [("t", [(.intId 1, ⟨[1], "a", []⟩)])]) "t" "q" 2
      [(.intId 1, ⟨[1], "a", []⟩)] (by decide)
  exact ⟨res, h1, h2⟩

theorem findColl_insertColl (L : List (String × Collection)) (n : String)
    (c : Collection) : findColl (insertColl L n c) n = some c := by
  induction L with
  | nil => simp [insertColl, findColl]
  | cons p rest ih =>
    obtain ⟨n0, c0⟩ := p
    simp only [insertColl]
    split
    · simp [findColl]
    · rename_i hne
      simp [findColl, hne, ih]

theorem add_none_none (eng : Engine) (st : Store) (name : String)
    (docs : List String) :
    add eng st name docs none none =
      (.ok (addList eng ((findColl st.collections name).getD [])
              (docs.zip ((docs.map fun _ => ([] : List (String × String))).zip
                (docs.map fun _ => (none : Option DocId))))).1,
       ⟨insertColl st.collections name
          (addList eng ((findColl st.collections name).getD [])
            (docs.zip ((docs.map fun _ => ([] : List (String × String))).zip
              (docs.map fun _ => (none : Option DocId))))).2⟩) := by
  simp [add]

/-- Concrete engine used by the witness theorems: every text embeds to the
one-dimensional vector `[1]`. -/
def engW : Engine := ⟨fun _ => [1], fun _ => [1]⟩

/-- C2: querying a collection name that was never created fails with
`CollectionNotFoundError` (not an empty result list), while `add` on the same
non-existent name succeeds and creates the collection implicitly. -/
theorem query_missing_collection (eng : Engine) (st : Store) (name text : String)
    (k : Nat) (docs : List String)
    (h : findColl st.collections name = none) :
    query eng st name text k = .error .collectionNotFound ∧
    ∃ ids st', add eng st name docs none none = (.ok ids, st') ∧
      (findColl st'.collections name).isSome = true := by
  refine ⟨by simp [query, h], ?_⟩
  rw [add_none_none]
  refine ⟨_, _, rfl, ?_⟩
  simp [findColl_insertColl]

/-- Witness for C2 at the empty store. -/
theorem query_missing_collection_witness :
    findColl (Store.mk []).collections "t" = none ∧
    query engW (Store.mk []) "t" "q" 1 = .error .collectionNotFound ∧
    ∃ ids st', add engW (Store.mk []) "t" ["a"] none none = (.ok ids, st') ∧
      (findColl st'.collections "t").isSome = true := by
  have h := query_missing_collection engW (Store.mk []) "t" "q" 1 ["a"] rfl
  exact ⟨rfl, h.1, h.2⟩

/-- C4: an `add` whose metadata sequence does not align 1:1 with the
documents fails with `ArgumentError` and returns the store unchanged, so no
document is partially inserted. -/
theorem add_metadata_mismatch (eng : Engine) (st : Store) (name : String)
    (docs : List String) (ms : List (List (String × String)))
    (ids : Option (List DocId)) (h : ms.length ≠ docs.length) :
    add eng st name docs (some ms) ids = (.error .argumentError, st) := by
  simp [add, h]

/-- Witness for C4: three documents against two metadata entries. -/
theorem add_metadata_mismatch_witness :
    ([[("s", "x")], [("s", "y")]] : List (List (String × String))).length ≠
      (["a", "b", "c"] : List String).length ∧
    add engW (Store.mk []) "t" ["a", "b", "c"]
        (some [[("s", "x")], [("s", "y")]]) none =
      (.error .argumentError, Store.mk []) :=
  ⟨by decide,
   add_metadata_mismatch engW (Store.mk []) "t" ["a", "b", "c"]
     [[("s", "x")], [("s", "y")]] none (by decide)⟩

theorem findRec_upsert (c : Collection) (i : DocId) (r : Record) :
    findRec (upsert c i r) i = some r := by
  induction c with
  | nil => simp [upsert, findRec]
  | cons p rest ih =>
    obtain ⟨j, s⟩ := p
    simp only [upsert]
    split
    · simp [findRec]
    · rename_i hne
      simp [findRec, hne, ih]

theorem keys_cons (p : DocId × Record) (rest : Collection) :
    keys (p :: rest) = p.1 :: keys rest := rfl

theorem keys_upsert_of_mem {c : Collection} {i : DocId} (r : Record)
    (hi : i ∈ keys c) : keys (upsert c i r) = keys c := by
  induction c with
  | nil => simp [keys] at hi
  | cons p rest ih =>
    obtain ⟨j, s⟩ := p
    rw [keys_cons] at hi
    simp only [upsert]
    split
    · rename_i he
      rw [keys_cons, keys_cons]
      simp [he]
    · rename_i hne
      have hi' : i ∈ keys rest := by
        rcases List.mem_cons.mp hi with he | hm
        · exact absurd he.symm hne
        · exact hm
      rw [keys_cons, keys_cons, ih hi']

theorem filter_key_eq_nil {c : Collection} {i : DocId} (h : i ∉ keys c) :
    c.filter (fun p => decide (p.1 = i)) = [] := by
  induction c with
  | nil => rfl
  | cons p rest ih =>
    rw [keys_cons] at h
    have hne : ¬ p.1 = i := fun he => h (List.mem_cons.mpr (Or.inl he.symm))
    have h' : i ∉ keys rest := fun hm => h (List.mem_cons.mpr (Or.inr hm))
    simp [List.filter_cons, hne, ih h']

theorem filter_upsert {c : Collection} {i : DocId} (r : Record)
    (hnd : (keys c).Nodup) (hi : i ∈ keys c) :
    (upsert c i r).filter (fun p => decide (p.1 = i)) = [(i, r)] := by
  induction c with
  | nil => simp [keys] at hi
  | cons p rest ih =>
    obtain ⟨j, s⟩ := p
    rw [keys_cons] at hnd hi
    have hnd' := List.nodup_cons.mp hnd
    simp only [upsert]
    split
    · rename_i he
      subst he
      simp [List.filter_cons, filter_key_eq_nil hnd'.1]
    · rename_i hne
      have hi' : i ∈ keys rest := by
        rcases List.mem_cons.mp hi with he | hm
        · exact absurd he.symm hne
        · exact hm
      simp [List.filter_cons, hne, ih hnd'.2 hi']

/-- C3: `add` has upsert semantics. Re-adding a document under an identifier
already present overwrites that identifier's record in place: afterwards the
record found under the identifier is exactly the latest (vector, text,
metadata), the collection gains no second record for the identifier, and its
key sequence is unchanged. -/
theorem add_upsert_overwrite (eng : Engine) (st : Store) (name d : String)
    (m : List (String × String)) (i : DocId) (c : Collection)
    (h : findColl st.collections name = some c) (hi : i ∈ keys c)
    (hnd : (keys c).Nodup) :
    add eng st name [d] (some [m]) (some [i]) =
      (.ok [i], ⟨insertColl st.collections name
        (upsert c i ⟨eng.embedPassage d, d, m⟩)⟩) ∧
    findRec (upsert c i ⟨eng.embedPassage d, d, m⟩) i =
      some ⟨eng.embedPassage d, d, m⟩ ∧
    keys (upsert c i ⟨eng.embedPassage d, d, m⟩) = keys c ∧
    (upsert c i ⟨eng.embedPassage d, d, m⟩).filter (fun p => decide (p.1 = i)) =
      [(i, ⟨eng.embedPassage d, d, m⟩)] := by
  refine ⟨?_, findRec_upsert c i _, keys_upsert_of_mem _ hi, filter_upsert _ hnd hi⟩
  simp [add, h, addList, addOne]

/-- Witness for C3: overwriting the record stored under id `1`. -/
theorem add_upsert_overwrite_witness :
    (DocId.intId 1) ∈ keys [(.intId 1, ⟨[1], "old", [("k", "v")]⟩)] ∧
    findRec (upsert [(.intId 1, ⟨[1], "old", [("k", "v")]⟩)] (.intId 1)
        ⟨engW.embedPassage "new", "new", [("k2", "v2")]⟩) (.intId 1) =
      some ⟨engW.embedPassage "new", "new", [("k2", "v2")]⟩ := by
  refine ⟨by decide, ?_⟩
  exact (add_upsert_overwrite engW ⟨[("t", [(.intId 1, ⟨[1], "old", [("k", "v")]⟩)])]⟩
    "t" "new" [("k2", "v2")] (.intId 1) [(.intId 1, ⟨[1], "old", [("k", "v")]⟩)]
    (by decide) (by decide) (by decide)).2.1

theorem length_genCandidates (n : Nat) : (genCandidates n).length = n + 1 := by
  simp [genCandidates]

theorem nodup_genCandidates (n : Nat) : (genCandidates n).Nodup := by
  refine List.Nodup.map ?_ (List.nodup_range (n + 1))
  intro a b hab
  simpa using hab

theorem filter_not_mem_headD (ex cands : List DocId) (hnd : cands.Nodup)
    (hlen : ex.length < cands.length) (d : DocId) :
    (cands.filter (fun i => !(decide (i ∈ ex)))).headD d ∉ ex := by
  have hfne : cands.filter (fun i => !(decide (i ∈ ex))) ≠ [] := by
    intro hnil
    have hsub : ∀ i ∈ cands, i ∈ ex := by
      intro i hi
      by_contra hnot
      have hmem : i ∈ cands.filter (fun i => !(decide (i ∈ ex))) :=
        List.mem_filter.mpr ⟨hi, by simp [hnot]⟩
      rw [hnil] at hmem
      exact absurd hmem (List.not_mem_nil i)
    have h1 : cands.toFinset.card = cands.length := List.toFinset_card_of_nodup hnd
    have h2 : cands.toFinset ⊆ ex.toFinset := fun x hx =>
      List.mem_toFinset.mpr (hsub x (List.mem_toFinset.mp hx))
    have h3 := Finset.card_le_card h2
    have h4 := List.toFinset_card_le ex
    omega
  cases hc : cands.filter (fun i => !(decide (i ∈ ex))) with
  | nil => exact absurd hc hfne
  | cons a l =>
    have ha : a ∈ cands.filter (fun i => !(decide (i ∈ ex))) := by
      rw [hc]
      exact List.mem_cons_self a l
    have hpa := (List.mem_filter.mp ha).2
    simp only [List.headD_cons]
    simpa using hpa

theorem freshId_not_mem (c : Collection) : freshId c ∉ keys c := by
  unfold freshId
  exact filter_not_mem_headD (keys c) _ (nodup_genCandidates _)
    (by rw [length_genCandidates]; omega) _

theorem upsert_of_not_mem {c : Collection} {i : DocId} (r : Record)
    (h : i ∉ keys c) : upsert c i r = c ++ [(i, r)] := by
  induction c with
  | nil => rfl
  | cons p rest ih =>
    obtain ⟨j, s⟩ := p
    rw [keys_cons] at h
    have hne : ¬ j = i := fun he => h (List.mem_cons.mpr (Or.inl he.symm))
    have h' : i ∉ keys rest := fun hm => h (List.mem_cons.mpr (Or.inr hm))
    simp [upsert, hne, ih h']

theorem keys_append (c d : Collection) : keys (c ++ d) = keys c ++ keys d := by
  simp [keys]

theorem addList_fresh (eng : Engine) (c : Collection)
    (dm : List (String × List (String × String))) :
    ∃ ids : List DocId,
      addList eng c (dm.map fun p => (p.1, p.2, (none : Option DocId))) =
        (ids, c ++ ids.zip (dm.map fun p => ⟨eng.embedPassage p.1, p.1, p.2⟩)) ∧
      ids.length = dm.length ∧ ids.Nodup ∧ ∀ i ∈ ids, i ∉ keys c := by
  induction dm generalizing c with
  | nil => exact ⟨[], by simp [addList], rfl, List.nodup_nil, by simp⟩
  | cons p rest ih =>
    obtain ⟨d0, m0⟩ := p
    have hi0 : freshId c ∉ keys c := freshId_not_mem c
    have hup : upsert c (freshId c) ⟨eng.embedPassage d0, d0, m0⟩ =
        c ++ [(freshId c, ⟨eng.embedPassage d0, d0, m0⟩)] :=
      upsert_of_not_mem _ hi0
    obtain ⟨ids, heq, hlen, hnd, hfresh⟩ :=
      ih (c ++ [(freshId c, ⟨eng.embedPassage d0, d0, m0⟩)])
    refine ⟨freshId c :: ids, ?_, by simp [hlen], ?_, ?_⟩
    · simp only [List.map_cons, addList, addOne, Option.getD_none]
      rw [hup, heq]
      simp
    · refine List.nodup_cons.mpr ⟨?_, hnd⟩
      intro hmem
      apply hfresh _ hmem
      rw [keys_append]
      exact List.mem_append.mpr (Or.inr (by simp [keys]))
    · intro i hi
      rcases List.mem_cons.mp hi with rfl | hm
      · exact hi0
      · intro hin
        exact hfresh i hm (by rw [keys_append]; exact List.mem_append.mpr (Or.inl hin))

theorem findRec_append_of_not_mem {c : Collection} (d : Collection) {i : DocId}
    (h : i ∉ keys c) : findRec (c ++ d) i = findRec d i := by
  induction c with
  | nil => rfl
  | cons p rest ih =>
    obtain ⟨j, s⟩ := p
    rw [keys_cons] at h
    have hne : ¬ j = i := fun he => h (List.mem_cons.mpr (Or.inl he.symm))
    have h' : i ∉ keys rest := fun hm => h (List.mem_cons.mpr (Or.inr hm))
    simp [findRec, hne, ih h']

theorem getD_mem_of_lt (l : List DocId) (j : Nat) (hj : j < l.length) :
    l.getD j (.intId 0) ∈ l := by
  induction l generalizing j with
  | nil => simp at hj
  | cons a rest ih =>
    cases j with
    | zero => simp
    | succ j' =>
      simp only [List.getD_cons_succ]
      exact List.mem_cons_of_mem a (ih j' (by simpa using hj))

theorem findRec_zip_getD (ids : List DocId) (recs : List Record)
    (hnd : ids.Nodup) (hlen : recs.length = ids.length) (j : Nat)
    (hj : j < ids.length) :
    findRec (ids.zip recs) (ids.getD j (.intId 0)) =
      some (recs.getD j ⟨[], "", []⟩) := by
  induction ids generalizing recs j with
  | nil => simp at hj
  | cons i0 rest ih =>
    cases recs with
    | nil => simp at hlen
    | cons r0 rrest =>
      obtain ⟨hni, hnd'⟩ := List.nodup_cons.mp hnd
      cases j with
      | zero => simp [findRec]
      | succ j' =>
        have hj' : j' < rest.length := by simpa using hj
        have hmem : rest.getD j' (.intId 0) ∈ rest := getD_mem_of_lt rest j' hj'
        have hne : ¬ i0 = rest.getD j' (.intId 0) := fun he => hni (he ▸ hmem)
        simp only [List.getD_cons_succ, List.zip_cons_cons, findRec, if_neg hne]
        exact ih rrest hnd' (by simpa using hlen) j' hj'

theorem getD_map_rec (docs : List String) (f : String → Record) (j : Nat)
    (hj : j < docs.length) :
    (docs.map f).getD j ⟨[], "", []⟩ = f (docs.getD j "") := by
  induction docs generalizing j with
  | nil => simp at hj
  | cons d rest ih =>
    cases j with
    | zero => simp
    | succ j' => simpa using ih j' (by simpa using hj)

theorem zip_self_maps (docs : List String) :
    docs.zip ((docs.map fun _ => ([] : List (String × String))).zip
      (docs.map fun _ => (none : Option DocId))) =
    (docs.map fun d => (d, ([] : List (String × String)))).map
      (fun p => (p.1, p.2, (none : Option DocId))) := by
  induction docs with
  | nil => rfl
  | cons d rest ih =>
    simp only [List.map_cons, List.zip_cons_cons]
    rw [ih]

theorem addList_fst_supplied (eng : Engine) (c : Collection) (docs : List String)
    (ms : List (List (String × String))) (l : List DocId)
    (hm : ms.length = docs.length) (hl : l.length = docs.length) :
    (addList eng c (docs.zip (ms.zip (l.map some)))).1 = l := by
  induction docs generalizing ms l c with
  | nil =>
    cases l with
    | nil => rfl
    | cons a b => simp at hl
  | cons d rest ih =>
    cases ms with
    | nil => simp at hm
    | cons m0 mrest =>
      cases l with
      | nil => simp at hl
      | cons i0 lrest =>
        have hrec := ih (upsert c i0 ⟨eng.embedPassage d, d, m0⟩) mrest lrest
          (by simpa using hm) (by simpa using hl)
        simp only [List.map_cons, List.zip_cons_cons, addList, addOne,
          Option.getD_some]
        exact congrArg (List.cons i0) hrec

/-- C5: a successful `add` returns identifiers in input order: supplied
identifiers come back exactly as given, and when no identifiers are supplied
the store generates one surrogate per document — pairwise distinct, distinct
from every identifier already in the collection, and positionally aligned
with the documents (the record found under the `j`-th returned identifier
holds the `j`-th document). -/
theorem add_generated_ids (eng : Engine) (st : Store) (name : String)
    (docs : List String) (c : Collection)
    (h : findColl st.collections name = some c) :
    (∀ l : List DocId, l.length = docs.length →
      (add eng st name docs none (some l)).1 = .ok l) ∧
    ∃ ids c', add eng st name docs none none =
        (.ok ids, ⟨insertColl st.collections name c'⟩) ∧
      ids.length = docs.length ∧ ids.Nodup ∧ (∀ i ∈ ids, i ∉ keys c) ∧
      ∀ j, j < docs.length →
        findRec c' (ids.getD j (.intId 0)) =
          some ⟨eng.embedPassage (docs.getD j ""), docs.getD j "", []⟩ := by
  constructor
  · intro l hl
    have hsup := addList_fst_supplied eng c docs (docs.map fun _ => []) l
      (List.length_map _ _) hl
    simp [add, h, List.length_map, hl]
    simpa using hsup
  · obtain ⟨ids, heq, hlen, hnd, hfresh⟩ :=
      addList_fresh eng c (docs.map fun d => (d, []))
    have hlen2 : ids.length = docs.length := by simpa using hlen
    have hmapmap : (docs.map fun d => (d, ([] : List (String × String)))).map
        (fun p => (⟨eng.embedPassage p.1, p.1, p.2⟩ : Record)) =
        docs.map fun d => ⟨eng.embedPassage d, d, []⟩ := by
      rw [List.map_map]
      rfl
    refine ⟨ids, c ++ ids.zip (docs.map fun d => ⟨eng.embedPassage d, d, []⟩),
      ?_, hlen2, hnd, hfresh, ?_⟩
    · rw [add_none_none, h, Option.getD_some, zip_self_maps, heq, hmapmap]
    · intro j hj
      have hjid : j < ids.length := by omega
      have hmem : ids.getD j (.intId 0) ∈ ids := getD_mem_of_lt ids j hjid
      rw [findRec_append_of_not_mem _ (hfresh _ hmem)]
      rw [findRec_zip_getD ids (docs.map fun d => ⟨eng.embedPassage d, d, []⟩) hnd
        (by rw [List.length_map]; exact hlen2.symm) j hjid]
      rw [getD_map_rec docs _ j hj]

/-- Witness for C5 at a concrete store with one pre-existing record. -/
theorem add_generated_ids_witness :
    findColl (Store.mk [("t", [(.strId "x", ⟨[1], "x", []⟩)])]).collections "t" =
      some [(.strId "x", ⟨[1], "x", []⟩)] ∧
    ∃ ids c', add engW (Store.mk [("t", [(.strId "x", ⟨[1], "x", []⟩)])]) "t"
        ["a", "b"] none none =
        (.ok ids, ⟨insertColl
          (Store.mk [("t", [(.strId "x", ⟨[1], "x", []⟩)])]).collections "t" c'⟩) ∧
      ids.length = (["a", "b"] : List String).length ∧ ids.Nodup ∧
      (∀ i ∈ ids, i ∉ keys [(.strId "x", ⟨[1], "x", []⟩)]) ∧
      ∀ j, j < (["a", "b"] : List String).length →
        findRec c' (ids.getD j (.intId 0)) =
          some ⟨engW.embedPassage ((["a", "b"] : List String).getD j ""),
            (["a", "b"] : List String).getD j "", []⟩ := by
  refine ⟨by decide, ?_⟩
  exact (add_generated_ids engW (Store.mk [("t", [(.strId "x", ⟨[1], "x", []⟩)])])
    "t" ["a", "b"] [(.strId "x", ⟨[1], "x", []⟩)] (by decide)).2

/-- C6: `delete` removes exactly the listed identifiers, silently ignoring
absent ones and never failing; and in the spec's scenario — insert
`["a","b","c"]` under ids `[1,2,3]` into `"t"`, delete id `2`, query with
`top_k = 3` — exactly two results come back, with ids `1` and `3`, never
`2`, whatever the embedding model and query text. -/
theorem delete_removes (st : Store) (name : String) (ids : List DocId)
    (c : Collection) (h : findColl st.collections name = some c)
    (eng : Engine) (qt : String) :
    (findColl (delete st name ids).collections name =
      some (c.filter fun p => !(decide (p.1 ∈ ids)))) ∧
    (∀ i ∈ ids, i ∉ keys (c.filter fun p => !(decide (p.1 ∈ ids)))) ∧
    (∀ p ∈ c, p.1 ∉ ids → p ∈ c.filter fun p => !(decide (p.1 ∈ ids))) ∧
    ∃ res, query eng (delete ((add eng ⟨[]⟩ "t" ["a", "b", "c"] none
        (some [.intId 1, .intId 2, .intId 3])).2) "t" [.intId 2]) "t" qt 3 =
      .ok res ∧ res.length = 2 ∧ (res.map QueryResult.id).Perm ["1", "3"] ∧
      "2" ∉ res.map QueryResult.id := by
  refine ⟨by simp [delete, h, findColl_insertColl], ?_, ?_, ?_⟩
  · intro i hi hkey
    simp only [keys] at hkey
    obtain ⟨p, hp, hpi⟩ := List.mem_map.mp hkey
    have hpn := (List.mem_filter.mp hp).2
    rw [hpi] at hpn
    simp [hi] at hpn
  · intro p hp hnin
    exact List.mem_filter.mpr ⟨hp, by simp [hnin]⟩
  · have hadd : (add eng ⟨[]⟩ "t" ["a", "b", "c"] none
        (some [DocId.intId 1, DocId.intId 2, DocId.intId 3])).2 =
        ⟨[("t", [(.intId 1, ⟨eng.embedPassage "a", "a", []⟩),
                 (.intId 2, ⟨eng.embedPassage "b", "b", []⟩),
                 (.intId 3, ⟨eng.embedPassage "c", "c", []⟩)])]⟩ := by
      simp [add, addList, addOne, upsert, insertColl, findColl]
    have e1 : (!(decide (DocId.intId 1 ∈ [DocId.intId 2]))) = true := by decide
    have e2 : (!(decide (DocId.intId 2 ∈ [DocId.intId 2]))) = false := by decide
    have e3 : (!(decide (DocId.intId 3 ∈ [DocId.intId 2]))) = true := by decide
    have hdel : delete (⟨[("t", [(.intId 1, ⟨eng.embedPassage "a", "a", []⟩),
                 (.intId 2, ⟨eng.embedPassage "b", "b", []⟩),
                 (.intId 3, ⟨eng.embedPassage "c", "c", []⟩)])]⟩ : Store)
        "t" [.intId 2] =
        ⟨[("t", [(.intId 1, ⟨eng.embedPassage "a", "a", []⟩),
                 (.intId 3, ⟨eng.embedPassage "c", "c", []⟩)])]⟩ := by
      simp [delete, findColl, insertColl, List.filter_cons, e1, e2, e3]
    have r1 : renderDocId (.intId 1) = "1" := by decide
    have r3 : renderDocId (.intId 3) = "3" := by decide
    rcases lt_or_le (dot (eng.embedQuery qt) (eng.embedPassage "a"))
      (dot (eng.embedQuery qt) (eng.embedPassage "c")) with hc | hc
    · have hq : query eng (delete ((add eng ⟨[]⟩ "t" ["a", "b", "c"] none
          (some [DocId.intId 1, DocId.intId 2, DocId.intId 3])).2) "t"
          [.intId 2]) "t" qt 3 = .ok
          [⟨renderDocId (.intId 3), dot (eng.embedQuery qt) (eng.embedPassage "c"),
            "c", [("document", "c")]⟩,
           ⟨renderDocId (.intId 1), dot (eng.embedQuery qt) (eng.embedPassage "a"),
            "a", [("document", "a")]⟩] := by
        rw [hadd, hdel]
        simp [query, findColl, topScored, scoreColl, scoreCollFrom, sortDesc,
          insertDesc, renderResult, hc]
      refine ⟨_, hq, rfl, ?_, ?_⟩
      · simp only [List.map_cons, List.map_nil, r1, r3]
        exact List.Perm.swap "1" "3" []
      · simp only [List.map_cons, List.map_nil, r1, r3]
        decide
    · have hq : query eng (delete ((add eng ⟨[]⟩ "t" ["a", "b", "c"] none
          (some [DocId.intId 1, DocId.intId 2, DocId.intId 3])).2) "t"
          [.intId 2]) "t" qt 3 = .ok
          [⟨renderDocId (.intId 1), dot (eng.embedQuery qt) (eng.embedPassage "a"),
            "a", [("document", "a")]⟩,
           ⟨renderDocId (.intId 3), dot (eng.embedQuery qt) (eng.embedPassage "c"),
            "c", [("document", "c")]⟩] := by
        rw [hadd, hdel]
        simp [query, findColl, topScored, scoreColl, scoreCollFrom, sortDesc,
          insertDesc, renderResult, hc.not_lt]
      refine ⟨_, hq, rfl, ?_, ?_⟩
      · simp only [List.map_cons, List.map_nil, r1, r3]
        exact List.Perm.refl _
      · simp only [List.map_cons, List.map_nil, r1, r3]
        decide

/-- Witness for C6 at a concrete one-record store. -/
theorem delete_removes_witness :
    findColl (Store.mk [("t", [(.intId 1, ⟨[1], "a", []⟩)])]).collections "t" =
      some [(.intId 1, ⟨[1], "a", []⟩)] ∧
    findColl (delete (Store.mk [("t", [(.intId 1, ⟨[1], "a", []⟩)])]) "t"
        [.intId 1]).collections "t" =
      some ([(.intId 1, ⟨[1], "a", []⟩)].filter
        fun p => !(decide (p.1 ∈ [DocId.intId 1]))) := by
  refine ⟨by decide, ?_⟩
  exact (delete_removes (Store.mk [("t", [(.intId 1, ⟨[1], "a", []⟩)])]) "t"
    [.intId 1] [(.intId 1, ⟨[1], "a", []⟩)] (by decide) engW "q").1

theorem query_ok_mem (eng : Engine) (st : Store) (name text : String) (k : Nat)
    (c : Collection) (h : findColl st.collections name = some c)
    (res : List QueryResult) (hq : query eng st name text k = .ok res) :
    ∀ r ∈ res, ∃ s : Scored, (s.did, s.entry) ∈ c ∧ r = renderResult s := by
  have hres : (topScored (eng.embedQuery text) c k).map renderResult = res := by
    have hq2 : query eng st name text k =
        .ok ((topScored (eng.embedQuery text) c k).map renderResult) := by
      simp [query, h]
    rw [hq2] at hq
    exact Except.ok.inj hq
  intro r hr
  rw [← hres] at hr
  obtain ⟨s, hs, rfl⟩ := List.mem_map.mp hr
  exact ⟨s, mem_topScored hs, rfl⟩

/-- C9: every query result renders its identifier as a string: the result's
`id` field is the string rendering of the stored identifier, and for a record
inserted under a 64-bit integer identifier `n` it is the decimal string
`toString n`, not the integer itself. -/
theorem query_renders_int_ids (eng : Engine) (st : Store) (name text : String)
    (k : Nat) (c : Collection) (h : findColl st.collections name = some c)
    (res : List QueryResult) (hq : query eng st name text k = .ok res) :
    ∀ r ∈ res, ∃ did rc, (did, rc) ∈ c ∧ r.id = renderDocId did ∧
      ∀ n : Int, did = .intId n → r.id = toString n := by
  intro r hr
  obtain ⟨s, hmem, rfl⟩ := query_ok_mem eng st name text k c h res hq r hr
  refine ⟨s.did, s.entry, hmem, rfl, ?_⟩
  intro n hn
  simp [renderResult, renderDocId, hn]

/-- Witness for C9: a record inserted under integer id `42` comes back with
the string id rendering. -/
theorem query_renders_int_ids_witness :
    findColl (Store.mk [("d", [(.intId 42, ⟨[1], "x", []⟩)])]).collections "d" =
      some [(.intId 42, ⟨[1], "x", []⟩)] ∧
    ∀ r ∈ (topScored (engW.embedQuery "q")
        [(.intId 42, ⟨[1], "x", []⟩)] 1).map renderResult,
      ∃ (did : DocId) (rc : Record),
        (did, rc) ∈ ([(.intId 42, ⟨[1], "x", []⟩)] : Collection) ∧
        r.id = renderDocId did ∧ ∀ n : Int, did = .intId n → r.id = toString n := by
  refine ⟨by decide, ?_⟩
  exact query_renders_int_ids engW
    (Store.mk [("d", [(.intId 42, ⟨[1], "x", []⟩)])]) "d" "q" 1
    [(.intId 42, ⟨[1], "x", []⟩)] (by decide)
    ((topScored (engW.embedQuery "q")
      [(.intId 42, ⟨[1], "x", []⟩)] 1).map renderResult)
    (by simp [query, findColl])

/-- C10: every query result's metadata is the caller-supplied metadata
augmented with the stored document text under the reserved key `document`;
the same text fills the result's `document` field, and a first-match lookup
of `document` always yields the stored text, shadowing any caller metadata
entry with that key. -/
theorem query_metadata_document (eng : Engine) (st : Store) (name text : String)
    (k : Nat) (c : Collection) (h : findColl st.collections name = some c)
    (res : List QueryResult) (hq : query eng st name text k = .ok res) :
    ∀ r ∈ res, ∃ did rc, (did, rc) ∈ c ∧ r.document = rc.text ∧
      r.metadata = ("document", rc.text) :: rc.meta ∧
      lookupMeta "document" r.metadata = some rc.text := by
  intro r hr
  obtain ⟨s, hmem, rfl⟩ := query_ok_mem eng st name text k c h res hq r hr
  refine ⟨s.did, s.entry, hmem, rfl, rfl, ?_⟩
  simp [lookupMeta, renderResult]

/-- Witness for C10: the stored record's own metadata uses the key
`document`, and the lookup still returns the stored document text. -/
theorem query_metadata_document_witness :
    findColl (Store.mk
        [("d", [(.intId 1, ⟨[1], "txt", [("document", "own")]⟩)])]).collections
      "d" = some [(.intId 1, ⟨[1], "txt", [("document", "own")]⟩)] ∧
    ∀ r ∈ (topScored (engW.embedQuery "q")
        [(.intId 1, ⟨[1], "txt", [("document", "own")]⟩)] 1).map renderResult,
      ∃ (did : DocId) (rc : Record),
        (did, rc) ∈ ([(.intId 1, ⟨[1], "txt", [("document", "own")]⟩)] : Collection) ∧
        r.document = rc.text ∧ r.metadata = ("document", rc.text) :: rc.meta ∧
        lookupMeta "document" r.metadata = some rc.text := by
  refine ⟨by decide, ?_⟩
  exact query_metadata_document engW
    (Store.mk [("d", [(.intId 1, ⟨[1], "txt", [("document", "own")]⟩)])])
    "d" "q" 1 [(.intId 1, ⟨[1], "txt", [("document", "own")]⟩)]
    (by decide)
    ((topScored (engW.embedQuery "q")
      [(.intId 1, ⟨[1], "txt", [("document", "own")]⟩)] 1).map renderResult)
    (by simp [query, findColl])

/-- Modelled from the spec: §4.3 — `normSq` is the sum of squares of the
components, the square of the Euclidean norm. Floating-point vector
components are idealized as real numbers. -/
def normSq (v : List ℝ) : ℝ := (v.map fun x => x * x).sum

/-- Modelled from the spec: §4.3 post-processing — L2 normalization divides
each component by the Euclidean norm; if the norm is exactly zero it emits a
zero vector rather than dividing by zero. -/
noncomputable def l2normalize (v : List ℝ) : List ℝ :=
  if normSq v = 0 then v.map fun _ => 0
  else v.map fun x => x / Real.sqrt (normSq v)

theorem normSq_nonneg (v : List ℝ) : 0 ≤ normSq v := by
  induction v with
  | nil => simp [normSq]
  | cons x xs ih =>
    simp only [normSq, List.map_cons, List.sum_cons]
    exact add_nonneg (mul_self_nonneg x) ih

theorem normSq_map_div (v : List ℝ) (s : ℝ) :
    normSq (v.map fun x => x / s) = normSq v / (s * s) := by
  induction v with
  | nil => simp [normSq]
  | cons x xs ih =>
    simp only [normSq, List.map_cons, List.sum_cons] at *
    rw [ih, div_mul_div_comm, div_add_div_same]

/-- C7: the pipeline's emitted vector is the raw vector divided by its
Euclidean norm whenever that norm is nonzero — and then has norm exactly 1
(squared norm 1); for a raw vector of norm exactly zero the pipeline emits
the zero vector instead of dividing by zero. -/
theorem l2normalize_norm_one (v : List ℝ) :
    (normSq v ≠ 0 →
      l2normalize v = v.map (fun x => x / Real.sqrt (normSq v)) ∧
      normSq (l2normalize v) = 1 ∧
      Real.sqrt (normSq (l2normalize v)) = 1) ∧
    (normSq v = 0 → l2normalize v = v.map fun _ => 0) := by
  constructor
  · intro hne
    have h1 : l2normalize v = v.map (fun x => x / Real.sqrt (normSq v)) := by
      simp [l2normalize, hne]
    have h2 : normSq (l2normalize v) = 1 := by
      rw [h1, normSq_map_div, Real.mul_self_sqrt (normSq_nonneg v)]
      exact div_self hne
    exact ⟨h1, h2, by rw [h2]; exact Real.sqrt_one⟩
  · intro h0
    simp [l2normalize, h0]

/-- Witness for C7 at the raw vector `[3, 4]`, whose squared norm is 25. -/
theorem l2normalize_norm_one_witness :
    normSq [(3 : ℝ), 4] ≠ 0 ∧ normSq (l2normalize [(3 : ℝ), 4]) = 1 := by
  have hne : normSq [(3 : ℝ), 4] ≠ 0 := by norm_num [normSq]
  exact ⟨hne, ((l2normalize_norm_one [(3 : ℝ), 4]).1 hne).2.1⟩

/-- Modelled from the spec: §4.2 — the inference engine separates PASSAGE
and QUERY embedding modes. -/
inductive Mode where
  | passage | que
deriving DecidableEq, Repr

/-- Modelled from the spec: §4.1/§4.2 — the loaded model and vocabulary are
immutable process-wide state; running the model is a function of mode and
input text. -/
structure LoadedModel where
  run : Mode → String → List ℝ

/-- Modelled from the spec: §4.3 — embedding one document in PASSAGE mode,
in state-passing form so the absence of side effects on the loaded model
state is explicit: the call returns the vector and the resulting state. -/
noncomputable def embedPassageSt (m : LoadedModel) (doc : String) :
    List ℝ × LoadedModel :=
  (l2normalize (m.run .passage doc), m)

/-- C8: PASSAGE-mode embedding is deterministic and side-effect free:
a call leaves the loaded model state unchanged, and a second call on the
same document against the state left by the first yields an identical
vector, embedding being a pure function of the input and the immutable
loaded model. -/
theorem embedPassage_deterministic (m : LoadedModel) (d : String) :
    (embedPassageSt m d).2 = m ∧
    (embedPassageSt ((embedPassageSt m d).2) d).1 = (embedPassageSt m d).1 :=
  ⟨rfl, rfl⟩

end FastEmbed
